import Mathlib

/-!
The ip-json service: lookup-and-merge engine and bounded TTL cache.

A shallow embedding of `types.go`, `service.go` and the cache/lookup part of
`main.go`, followed by the properties proved about it.

Conventions of the embedding

* Go `int`, `int64`, `time.Duration` and `time.Time` are `Int`; a `time.Time`
  is its number of nanoseconds since the Unix epoch and `Unix()` is the floor
  division by `10^9`.
* Go `float64` is a type `F` carrying the operations the code uses
  (`Float64Ops`); nothing is assumed about them.
* A `*JieGuo` that may be nil is an `Option`.
* A Go `map` is a finite association list with pairwise distinct keys
  (`AList`); the order in which `range` visits it is unspecified in Go and is
  an explicit argument (`Order`) of every function that ranges over a map.
  The same device gives the order in which results arrive on a channel.
* Mutexes, the wait group and the sweep goroutine's ticker are not modelled:
  each cache method is one atomic state transformer.
-/

namespace IpJson

/-! ## Data model (`types.go`) -/

/-- The operations on `float64` that `merge` performs: the zero value, `+`, `/`,
the conversion `float64(n)` and the test `x != 0`. -/
class Float64Ops (F : Type) where
  zero : F
  add : F → F → F
  quo : F → F → F
  ofInt : Int → F
  neZero : F → Bool

/-- Exact rational arithmetic as an instance of the float operations. -/
instance : Float64Ops ℚ where
  zero := 0
  add := fun a b => a + b
  quo := fun a b => a / b
  ofInt := fun n => (n : ℚ)
  neZero := fun a => decide (a ≠ 0)

/-- The record `JieGuo` of `types.go`: one provider's answer, and the merged answer. -/
structure JieGuo (F : Type) where
  IP : String
  Hostname : String
  City : String
  Region : String
  RegionCode : String
  Country : String
  CountryName : String
  Continent : String
  Postal : String
  Latitude : F
  Longitude : F
  Timezone : String
  UTCOffset : String
  Org : String
  ASN : String
  ISP : String
  IsProxy : Option Bool
  Sources : Int
  deriving DecidableEq

/-- The Go zero value of `JieGuo`. -/
def JieGuo.zero (F : Type) [Float64Ops F] : JieGuo F :=
  { IP := "", Hostname := "", City := "", Region := "", RegionCode := "", Country := "",
    CountryName := "", Continent := "", Postal := "", Latitude := Float64Ops.zero,
    Longitude := Float64Ops.zero, Timezone := "", UTCOffset := "", Org := "", ASN := "",
    ISP := "", IsProxy := none, Sources := 0 }

/-- The struct `cacheItem`: a record pointer (nil is the negative sentinel) and the
expiry in Unix seconds. -/
structure cacheItem (F : Type) where
  data : Option (JieGuo F)
  expireAt : Int
  deriving DecidableEq

/-- An order of visit: a rearrangement of a list that keeps its elements. It stands
for the unspecified order of a Go `range` over a map and of arrival on a channel. -/
structure Order (α : Type) where
  arrange : List α → List α
  perm : ∀ l, (arrange l).Perm l

/-- The order that visits a list front to back. -/
def Order.front (α : Type) : Order α := ⟨fun l => l, fun l => List.Perm.refl l⟩

/-- The order that visits a list back to front. -/
def Order.back (α : Type) : Order α := ⟨List.reverse, fun l => List.reverse_perm l⟩

/-! ## Cache (`service.go`) -/

/-- The Go type `map[string]cacheItem`. -/
abbrev Table (F : Type) := AList (fun _ : String => cacheItem F)

/-- One entry of the table as `range` yields it. -/
abbrev Entry (F : Type) := Sigma (fun _ : String => cacheItem F)

/-- The struct `cache` without its mutex and stop channel. -/
structure cache (F : Type) where
  data : Table F
  ttl : Int
  max : Int

/-- The method `Time.Unix`: whole seconds of a time given in nanoseconds. -/
def unix (t : Int) : Int := t / 1000000000

/-- The constructor `newCache`. -/
def newCache (F : Type) (ttl max : Int) : cache F :=
  { data := ∅, ttl := ttl, max := max }

/-- The built-in `len(c.data)`. -/
def cache.len {F : Type} (c : cache F) : Int := (c.data.entries.length : Int)

/-- The method `cache.get`, called when the clock reads `now`; the cache is
returned next to the result to make the effect on the table explicit. -/
def cache.get {F : Type} (c : cache F) (ip : String) (now : Int) :
    cache F × (Option (JieGuo F) × Bool) :=
  match c.data.lookup ip with
  | none => (c, (none, false))
  | some item => if unix now > item.expireAt then (c, (none, false)) else (c, (item.data, true))

/-- The local variables of `cache.evict`. -/
structure evictVars where
  oldest : String
  oldestT : Int
  first : Bool
  deriving DecidableEq

/-- The body of the loop of `cache.evict`. -/
def evictStep {F : Type} (s : evictVars) (kv : Entry F) : evictVars :=
  if s.first || kv.2.expireAt < s.oldestT then
    { oldest := kv.1, oldestT := kv.2.expireAt, first := false }
  else s

/-- The method `cache.evict`, the map being visited in the order `o`. -/
def cache.evict {F : Type} (o : Order (Entry F)) (c : cache F) : cache F :=
  let s := (o.arrange c.data.entries).foldl evictStep
    { oldest := "", oldestT := 0, first := true }
  if !s.first then { c with data := c.data.erase s.oldest } else c

/-- The method `cache.set`, called when the clock reads `now`. -/
def cache.set {F : Type} (o : Order (Entry F)) (c : cache F) (ip : String)
    (val : Option (JieGuo F)) (now : Int) : cache F :=
  let c1 := if c.len ≥ c.max then c.evict o else c
  { c1 with data := c1.data.insert ip { data := val, expireAt := unix (now + c.ttl) } }

/-- The method `cache.setTTL`, called when the clock reads `now`. -/
def cache.setTTL {F : Type} (o : Order (Entry F)) (c : cache F) (ip : String)
    (val : Option (JieGuo F)) (ttl : Int) (now : Int) : cache F :=
  let c1 := if c.len ≥ c.max then c.evict o else c
  { c1 with data := c1.data.insert ip { data := val, expireAt := unix (now + ttl) } }

/-- One write to the cache: which method, its arguments, the clock reading and
the order in which eviction visits the map. -/
inductive Write (F : Type) where
  | set (o : Order (Entry F)) (ip : String) (val : Option (JieGuo F)) (now : Int)
  | setTTL (o : Order (Entry F)) (ip : String) (val : Option (JieGuo F)) (ttl : Int) (now : Int)

/-- Performs one write. -/
def cache.write {F : Type} (c : cache F) : Write F → cache F
  | .set o ip val now => c.set o ip val now
  | .setTTL o ip val ttl now => c.setTTL o ip val ttl now

/-- Performs a sequence of writes, first to last. -/
def cache.writes {F : Type} (c : cache F) (ws : List (Write F)) : cache F :=
  ws.foldl cache.write c

/-! ## Aggregation (`service.go`) -/

/-- The struct `lookupResult`: a successful answer tagged with the position of its
provider. -/
structure lookupResult (F : Type) where
  idx : Int
  info : JieGuo F
  deriving DecidableEq

/-- The map `byIdx` of `merge` after its first loop: starting from the empty map,
each result in list order is assigned at its index (a later one overwrites). The
map is only ever looked up, so it is represented by its lookup function. -/
def byIdxOf {F : Type} (results : List (lookupResult F)) : Int → Option (JieGuo F) :=
  results.foldl (fun m r => fun j => if j = r.idx then some r.info else m j) (fun _ => none)

/-- The variables updated by the second loop of `merge`. -/
structure mergeVars (F : Type) where
  out : JieGuo F
  latSum : F
  lonSum : F
  coordN : Int

/-- The body of the second loop of `merge` for a present record `info`. The twelve
string tests each read and write one field of `out`, a different one each. -/
def mergeInfo {F : Type} [Float64Ops F] (s : mergeVars F) (info : JieGuo F) : mergeVars F :=
  let out : JieGuo F :=
    { s.out with
      City := if s.out.City = "" then info.City else s.out.City
      Region := if s.out.Region = "" then info.Region else s.out.Region
      RegionCode := if s.out.RegionCode = "" then info.RegionCode else s.out.RegionCode
      Country := if s.out.Country = "" then info.Country else s.out.Country
      CountryName := if s.out.CountryName = "" then info.CountryName else s.out.CountryName
      Continent := if s.out.Continent = "" then info.Continent else s.out.Continent
      Postal := if s.out.Postal = "" then info.Postal else s.out.Postal
      Timezone := if s.out.Timezone = "" then info.Timezone else s.out.Timezone
      UTCOffset := if s.out.UTCOffset = "" then info.UTCOffset else s.out.UTCOffset
      Org := if s.out.Org = "" then info.Org else s.out.Org
      ASN := if s.out.ASN = "" then info.ASN else s.out.ASN
      ISP := if s.out.ISP = "" then info.ISP else s.out.ISP
      IsProxy := if s.out.IsProxy = none ∧ info.IsProxy ≠ none then info.IsProxy
        else s.out.IsProxy }
  if Float64Ops.neZero info.Latitude || Float64Ops.neZero info.Longitude then
    { out := out
      latSum := Float64Ops.add s.latSum info.Latitude
      lonSum := Float64Ops.add s.lonSum info.Longitude
      coordN := s.coordN + 1 }
  else { s with out := out }

/-- The body of the second loop of `merge` at index `i`. -/
def mergeStep {F : Type} [Float64Ops F] (byIdx : Int → Option (JieGuo F))
    (s : mergeVars F) (i : Int) : mergeVars F :=
  match byIdx i with
  | none => s
  | some info => mergeInfo s info

/-- The values `0, 1, ..., total-1` of the loop variable; none when `total <= 0`. -/
def ordinals (total : Int) : List Int := (List.range total.toNat).map Int.ofNat

/-- The reverse-DNS step at the end of `merge`. The answer of `LookupAddr` is
`none` for an error and the list of names otherwise; the names it returns are
valid domain names, hence not empty, so the byte index `len(h)-1` is in range. -/
def withHostname {F : Type} (out : JieGuo F) (rdns : Option (List String)) : JieGuo F :=
  match rdns with
  | some (h :: _) =>
    { out with Hostname := if h.back = '.' then h.dropRight 1 else h }
  | _ => out

/-- The function `merge`; `rdns` is the answer of the reverse-DNS lookup. -/
def merge {F : Type} [Float64Ops F] (ip : String) (results : List (lookupResult F))
    (total : Int) (rdns : Option (List String)) : JieGuo F :=
  let out : JieGuo F := { JieGuo.zero F with IP := ip, Sources := (results.length : Int) }
  let byIdx := byIdxOf results
  let s := (ordinals total).foldl (mergeStep byIdx)
    { out := out, latSum := Float64Ops.zero, lonSum := Float64Ops.zero, coordN := 0 }
  let out : JieGuo F :=
    if s.coordN > 0 then
      { s.out with
        Latitude := Float64Ops.quo s.latSum (Float64Ops.ofInt s.coordN)
        Longitude := Float64Ops.quo s.lonSum (Float64Ops.ofInt s.coordN) }
    else s.out
  withHostname out rdns

/-- What the goroutines started by the loop `for i, p := range providers` send on
the channel, listed by provider position from `i` on: `fetched` holds, for each
provider in order, the record its `fetch` returned, or `none` when it returned an
error (deadline included); a failed provider sends nothing. -/
def sentFrom {F : Type} (i : Nat) : List (Option (JieGuo F)) → List (lookupResult F)
  | [] => []
  | none :: rest => sentFrom (i + 1) rest
  | some info :: rest => { idx := (i : Int), info := info } :: sentFrom (i + 1) rest

/-- Everything sent on the channel of `lookupAll`, listed by provider position. -/
def sent {F : Type} (fetched : List (Option (JieGuo F))) : List (lookupResult F) :=
  sentFrom 0 fetched

/-- The function `lookupAll`: the results are collected in the order `arrival` in
which they come out of the channel. -/
def lookupAll {F : Type} [Float64Ops F] (arrival : Order (lookupResult F)) (ip : String)
    (fetched : List (Option (JieGuo F))) (rdns : Option (List String)) :
    Except String (JieGuo F) :=
  let results := arrival.arrange (sent fetched)
  if results.length = 0 then .error "all providers failed"
  else .ok (merge ip results (fetched.length : Int) rdns)

/-! ## Request handler (`main.go`) -/

/-- What `handleIP` writes once the address has passed validation: a 200 with the
JSON encoding of a record pointer, or the 502 error object. -/
inductive Reply (F : Type) where
  | json200 (info : Option (JieGuo F))
  | error502
  deriving DecidableEq

/-- The function `handleIP` from the cache check on, for an address `ip` that passed
`validIP` and `publicIP`. The clock reads `nowGet` in `get` and `nowSet` in the
cache write. -/
def handleIP {F : Type} [Float64Ops F] (o : Order (Entry F)) (arrival : Order (lookupResult F))
    (c : cache F) (ip : String) (nowGet : Int) (fetched : List (Option (JieGuo F)))
    (rdns : Option (List String)) (nowSet : Int) : cache F × Reply F :=
  match c.get ip nowGet with
  | (c1, (info, true)) => (c1, .json200 info)
  | (c1, (_, false)) =>
    match lookupAll arrival ip fetched rdns with
    | .error _ => (c1.setTTL o ip none (60 * 1000000000) nowSet, .error502)
    | .ok info => (c1.set o ip (some info) nowSet, .json200 (some info))

/-! ## Vocabulary of the statements -/

/-- The write that took `c` to `after`, through the table state `evicted` reached by
`evict`, removed exactly one entry, one of least expiry, and then stored `item`
under the new key `ip`, leaving every other entry as it was. -/
def EvictsOne {F : Type} (c evicted after : cache F) (ip : String) (item : cacheItem F) : Prop :=
  ∃ k e, c.data.lookup k = some e ∧
    (∀ k2 e2, c.data.lookup k2 = some e2 → e.expireAt ≤ e2.expireAt) ∧
    evicted.data = c.data.erase k ∧
    evicted.len = c.len - 1 ∧
    evicted.data.lookup k = none ∧
    (∀ k2, k2 ≠ k → evicted.data.lookup k2 = c.data.lookup k2) ∧
    after.data = evicted.data.insert ip item ∧
    after.data.lookup k = none ∧
    after.data.lookup ip = some item ∧
    (∀ k2, k2 ≠ k → k2 ≠ ip → after.data.lookup k2 = c.data.lookup k2) ∧
    after.len = c.len

/-- The records the second loop of `merge` does not skip, in the order it visits
them, each with the index at which it was found. -/
def visited {F : Type} (results : List (lookupResult F)) (total : Int) : List (lookupResult F) :=
  (ordinals total).filterMap
    (fun i => (byIdxOf results i).map (fun info => { idx := i, info := info }))

/-- The ordinals in `[0,total)` at which the list holds a record, each once. -/
def presentOrdinals {F : Type} (results : List (lookupResult F)) (total : Int) : List Int :=
  (ordinals total).filter (fun i => decide (∃ r ∈ results, r.idx = i))

/-- The field `f` of `out` is the one of the record of lowest ordinal in which the
field differs from its unset value `z`, and is `z` when there is no such record. -/
def FirstWins {F β : Type} (z : β) (f : JieGuo F → β) (results : List (lookupResult F))
    (out : JieGuo F) : Prop :=
  (∀ r ∈ results, f r.info ≠ z →
      (∀ r2 ∈ results, f r2.info ≠ z → r.idx ≤ r2.idx) → f out = f r.info) ∧
  ((∀ r ∈ results, f r.info = z) → f out = z)

/-- The test of `merge` for a record that carries coordinates. -/
def hasCoord {F : Type} [Float64Ops F] (info : JieGuo F) : Bool :=
  Float64Ops.neZero info.Latitude || Float64Ops.neZero info.Longitude

/-- A record with the given city and coordinates and nothing else. -/
def sample (city : String) (lat lon : ℚ) : JieGuo ℚ :=
  { JieGuo.zero ℚ with City := city, Latitude := lat, Longitude := lon }

/-- Every field that `merge` fills by precedence obeys the first-wins rule: the
twelve string fields with unset value the empty string, and is-proxy with unset
value nil. -/
def FieldPrecedence {F : Type} (results : List (lookupResult F)) (out : JieGuo F) : Prop :=
  FirstWins "" JieGuo.City results out ∧
  FirstWins "" JieGuo.Region results out ∧
  FirstWins "" JieGuo.RegionCode results out ∧
  FirstWins "" JieGuo.Country results out ∧
  FirstWins "" JieGuo.CountryName results out ∧
  FirstWins "" JieGuo.Continent results out ∧
  FirstWins "" JieGuo.Postal results out ∧
  FirstWins "" JieGuo.Timezone results out ∧
  FirstWins "" JieGuo.UTCOffset results out ∧
  FirstWins "" JieGuo.Org results out ∧
  FirstWins "" JieGuo.ASN results out ∧
  FirstWins "" JieGuo.ISP results out ∧
  FirstWins none JieGuo.IsProxy results out

/-- Providers P0 and P1 both succeeding, with cities A and B and coordinates
(10,20) and (30,40). -/
def twoResults : List (lookupResult ℚ) :=
  [{ idx := 0, info := sample "A" 10 20 }, { idx := 1, info := sample "B" 30 40 }]

/-- The two results and a third provider reporting the coordinates (0,0). -/
def threeResults : List (lookupResult ℚ) :=
  twoResults ++ [{ idx := 2, info := sample "C" 0 0 }]

/-- P0 reporting is-proxy false and P1 reporting is-proxy true. -/
def proxyResults : List (lookupResult ℚ) :=
  [{ idx := 0, info := { sample "A" 10 20 with IsProxy := some false } },
   { idx := 1, info := { sample "B" 30 40 with IsProxy := some true } }]

/-- The six configured providers all failing. -/
def allFailed : List (Option (JieGuo ℚ)) := [none, none, none, none, none, none]

/-- The cache of `main` with its default settings (TTL 10 minutes, 10000 entries)
after a first request for 8.8.8.8 at time 0 during which every provider failed. -/
def afterFailure : cache ℚ × Reply ℚ :=
  handleIP (Order.front _) (Order.front _) (newCache ℚ 600000000000 10000) "8.8.8.8" 0
    allFailed none 0

/-- A cache with default TTL 1s and room for two entries, holding A (expiring at
+1s, stored by `set`) and B (expiring at +5s, stored by `setTTL`). -/
def cacheAB : cache ℚ :=
  ((newCache ℚ 1000000000 2).set (Order.front _) "A" (some (sample "a" 1 1)) 0).setTTL
    (Order.front _) "B" (some (sample "b" 2 2)) 5000000000 0

/-! ## Facts about the table -/

section CacheLemmas

variable {F : Type}

theorem len_erase_of_mem (t : Table F) (k : String) (h : k ∈ t) :
    ((t.erase k).entries.length : Int) = (t.entries.length : Int) - 1 := by
  obtain ⟨b, l₁, l₂, -, h2, h3⟩ := List.exists_of_kerase (AList.mem_keys.1 h)
  have e1 : (t.erase k).entries = l₁ ++ l₂ := h3
  rw [e1, h2]
  simp only [List.length_append, List.length_cons]
  push_cast
  ring

theorem len_insert_le (t : Table F) (k : String) (v : cacheItem F) :
    ((t.insert k v).entries.length : Int) ≤ (t.entries.length : Int) + 1 := by
  have h := (List.kerase_sublist k t.entries).length_le
  simp only [AList.insert_entries, List.length_cons]
  push_cast
  omega

theorem len_insert_of_not_mem (t : Table F) (k : String) (v : cacheItem F) (h : k ∉ t) :
    ((t.insert k v).entries.length : Int) = (t.entries.length : Int) + 1 := by
  rw [AList.insert_entries_of_neg h]
  simp

/-- What the loop of `evict` has computed after visiting the entries of `l`. -/
theorem evictScan_spec (l : List (Entry F)) :
    let r := l.foldl evictStep { oldest := "", oldestT := 0, first := true }
    (l = [] → r.first = true) ∧
    (l ≠ [] → r.first = false ∧ (∃ kv ∈ l, kv.1 = r.oldest ∧ kv.2.expireAt = r.oldestT) ∧
      ∀ kv ∈ l, r.oldestT ≤ kv.2.expireAt) := by
  induction l using List.reverseRecOn with
  | nil => simp
  | append_singleton l a ih =>
    simp only [List.foldl_append, List.foldl_cons, List.foldl_nil]
    refine ⟨fun h => absurd h (by simp), fun _ => ?_⟩
    by_cases hl : l = []
    · subst hl
      simp [evictStep]
    · obtain ⟨hf, ⟨kv, hkv, hk1, hk2⟩, hmin⟩ := ih.2 hl
      by_cases hlt : a.2.expireAt < (l.foldl evictStep ⟨"", 0, true⟩).oldestT
      · simp only [evictStep, hf, hlt, Bool.false_or, decide_True, if_true]
        refine ⟨trivial, ⟨a, by simp, rfl, rfl⟩, ?_⟩
        intro kv' hkv'
        rcases List.mem_append.1 hkv' with h | h
        · exact le_trans (le_of_lt hlt) (hmin kv' h)
        · rw [List.mem_singleton.1 h]
      · simp only [evictStep, hf, hlt, Bool.false_or, decide_False, if_false]
        refine ⟨hf, ⟨kv, List.mem_append_left _ hkv, hk1, hk2⟩, ?_⟩
        intro kv' hkv'
        rcases List.mem_append.1 hkv' with h | h
        · exact hmin kv' h
        · rw [List.mem_singleton.1 h]
          exact not_lt.1 hlt

theorem evict_empty (o : Order (Entry F)) (c : cache F) (h : c.data.entries = []) :
    c.evict o = c := by
  have hp := o.perm c.data.entries
  rw [h] at hp
  have h0 : o.arrange c.data.entries = [] := List.Perm.eq_nil (h ▸ hp)
  simp [cache.evict, h0]

/-- On a table that is not empty `evict` deletes one key, one whose expiry is least. -/
theorem evict_nonempty (o : Order (Entry F)) (c : cache F) (h : c.data.entries ≠ []) :
    ∃ k e, c.data.lookup k = some e ∧
      (∀ k2 e2, c.data.lookup k2 = some e2 → e.expireAt ≤ e2.expireAt) ∧
      c.evict o = { c with data := c.data.erase k } := by
  have hp := o.perm c.data.entries
  have hne : o.arrange c.data.entries ≠ [] := fun h0 => h (by rw [h0] at hp; exact hp.symm.eq_nil)
  obtain ⟨hf, ⟨kv, hkv, hk1, hk2⟩, hmin⟩ := (evictScan_spec (o.arrange c.data.entries)).2 hne
  refine ⟨kv.1, kv.2, ?_, ?_, ?_⟩
  · exact AList.mem_lookup_iff.2 (hp.mem_iff.1 hkv)
  · intro k2 e2 h2
    have := hmin ⟨k2, e2⟩ (hp.mem_iff.2 (AList.mem_lookup_iff.1 h2))
    rw [← hk2] at this
    exact this
  · simp only [cache.evict, hf, hk1]
    rfl

theorem setTTL_len_le (o : Order (Entry F)) (c : cache F) (ip : String)
    (val : Option (JieGuo F)) (ttl now : Int) :
    (c.setTTL o ip val ttl now).len ≤ max c.len (max c.max 1) := by
  unfold cache.setTTL
  by_cases hge : c.len ≥ c.max
  · simp only [hge, if_true]
    by_cases he : c.data.entries = []
    · rw [evict_empty o c he]
      have := len_insert_le c.data ip { data := val, expireAt := unix (now + ttl) }
      simp only [cache.len] at *
      rw [he] at this
      simp only [List.length_nil] at this
      omega
    · obtain ⟨k, e, hk, -, hev⟩ := evict_nonempty o c he
      rw [hev]
      have h1 := len_erase_of_mem c.data k (AList.lookup_isSome.1 (by rw [hk]; rfl))
      have h2 := len_insert_le (c.data.erase k) ip { data := val, expireAt := unix (now + ttl) }
      simp only [cache.len] at *
      omega
  · simp only [hge, if_false]
    have := len_insert_le c.data ip { data := val, expireAt := unix (now + ttl) }
    simp only [cache.len] at *
    omega

theorem set_eq_setTTL (o : Order (Entry F)) (c : cache F) (ip : String)
    (val : Option (JieGuo F)) (now : Int) :
    c.set o ip val now = c.setTTL o ip val c.ttl now := rfl

theorem evict_max (o : Order (Entry F)) (c : cache F) : (c.evict o).max = c.max := by
  unfold cache.evict
  simp only
  split <;> rfl

theorem setTTL_max (o : Order (Entry F)) (c : cache F) (ip : String)
    (val : Option (JieGuo F)) (ttl now : Int) : (c.setTTL o ip val ttl now).max = c.max := by
  unfold cache.setTTL
  simp only
  split
  · exact evict_max o c
  · rfl

theorem write_max (c : cache F) (w : Write F) : (c.write w).max = c.max := by
  cases w with
  | set o ip val now => exact setTTL_max o c ip val c.ttl now
  | setTTL o ip val ttl now => exact setTTL_max o c ip val ttl now

theorem write_len_le (c : cache F) (w : Write F) :
    (c.write w).len ≤ max c.len (max c.max 1) := by
  cases w with
  | set o ip val now => exact setTTL_len_le o c ip val c.ttl now
  | setTTL o ip val ttl now => exact setTTL_len_le o c ip val ttl now

theorem writes_len_le (ws : List (Write F)) (c : cache F) (h : c.len ≤ max c.max 1) :
    (c.writes ws).len ≤ max c.max 1 := by
  induction ws generalizing c with
  | nil => exact h
  | cons w ws ih =>
    have h1 := write_len_le c w
    have h2 := write_max c w
    have h3 : (c.write w).len ≤ max (c.write w).max 1 := by
      rw [h2]
      exact le_trans h1 (max_le h (le_refl _))
    have := ih (c.write w) h3
    rw [h2] at this
    exact this

/-- A write on a full table that holds at least one entry, for a key that is new. -/
theorem setTTL_evictsOne (o : Order (Entry F)) (c : cache F) (ip : String)
    (val : Option (JieGuo F)) (ttl now : Int) (hnew : c.data.lookup ip = none)
    (hfull : c.len = c.max) (hmax : 1 ≤ c.max) :
    EvictsOne c (c.evict o) (c.setTTL o ip val ttl now) ip
      { data := val, expireAt := unix (now + ttl) } := by
  have he : c.data.entries ≠ [] := by
    intro h0
    simp only [cache.len, h0, List.length_nil] at hfull
    omega
  obtain ⟨k, e, hk, hmin, hev⟩ := evict_nonempty o c he
  have hkmem : k ∈ c.data := AList.lookup_isSome.1 (by rw [hk]; rfl)
  have hkip : k ≠ ip := by
    intro h0
    rw [h0, hnew] at hk
    exact Option.noConfusion hk
  have hset : (c.setTTL o ip val ttl now).data =
      (c.data.erase k).insert ip { data := val, expireAt := unix (now + ttl) } := by
    have hge : c.len ≥ c.max := le_of_eq hfull.symm
    simp only [cache.setTTL, hge, if_true, hev]
  have hipmem : ip ∉ c.data.erase k := by
    rw [AList.mem_erase]
    exact fun h => (AList.lookup_eq_none.1 hnew) h.2
  refine ⟨k, e, hk, hmin, by rw [hev], ?_, by rw [hev]; exact AList.lookup_erase k c.data,
    ?_, by rw [hset, hev], ?_, ?_, ?_, ?_⟩
  · rw [hev]
    exact len_erase_of_mem c.data k hkmem
  · intro k2 h2
    rw [hev]
    exact AList.lookup_erase_ne h2
  · rw [hset, AList.lookup_insert_ne hkip]
    exact AList.lookup_erase k c.data
  · rw [hset]
    exact AList.lookup_insert _
  · intro k2 h2 h3
    rw [hset, AList.lookup_insert_ne h3]
    exact AList.lookup_erase_ne h2
  · have h1 := len_erase_of_mem c.data k hkmem
    have h2 := len_insert_of_not_mem (c.data.erase k) ip
      { data := val, expireAt := unix (now + ttl) } hipmem
    simp only [cache.len, hset] at *
    omega

theorem unix_mono {a b : Int} (h : a ≤ b) : unix a ≤ unix b :=
  Int.ediv_le_ediv (by decide) h

theorem setTTL_lookup (o : Order (Entry F)) (c : cache F) (ip : String)
    (val : Option (JieGuo F)) (ttl now : Int) :
    (c.setTTL o ip val ttl now).data.lookup ip =
      some { data := val, expireAt := unix (now + ttl) } := by
  simp only [cache.setTTL]
  exact AList.lookup_insert _

theorem get_after_setTTL (o : Order (Entry F)) (c : cache F) (ip : String)
    (val : Option (JieGuo F)) (ttl t t2 : Int) (h : t2 ≤ t + ttl) :
    ((c.setTTL o ip val ttl t).get ip t2).2 = (val, true) := by
  have hm := unix_mono h
  simp only [cache.get, setTTL_lookup]
  rw [if_neg (not_lt.2 hm)]

end CacheLemmas


/-! ## Facts about `merge` -/

section MergeLemmas

variable {F : Type}

theorem byIdxOf_append (l : List (lookupResult F)) (r : lookupResult F) (j : Int) :
    byIdxOf (l ++ [r]) j = if j = r.idx then some r.info else byIdxOf l j := by
  simp [byIdxOf, List.foldl_append]

theorem byIdxOf_none (l : List (lookupResult F)) (j : Int) (h : ∀ r ∈ l, r.idx ≠ j) :
    byIdxOf l j = none := by
  induction l using List.reverseRecOn with
  | nil => rfl
  | append_singleton l a ih =>
    rw [byIdxOf_append, if_neg (fun h0 => h a (by simp) h0.symm)]
    exact ih (fun r hr => h r (List.mem_append_left _ hr))

theorem byIdxOf_some (l : List (lookupResult F)) (j : Int) (info : JieGuo F)
    (h : byIdxOf l j = some info) : { idx := j, info := info } ∈ l := by
  induction l using List.reverseRecOn with
  | nil => exact Option.noConfusion h
  | append_singleton l a ih =>
    rw [byIdxOf_append] at h
    by_cases hj : j = a.idx
    · rw [if_pos hj] at h
      have : a.info = info := Option.some.inj h
      rw [hj, ← this]
      simp
    · rw [if_neg hj] at h
      exact List.mem_append_left _ (ih h)

theorem byIdxOf_of_mem (l : List (lookupResult F)) (hnd : (l.map lookupResult.idx).Nodup)
    (r : lookupResult F) (hr : r ∈ l) : byIdxOf l r.idx = some r.info := by
  induction l using List.reverseRecOn with
  | nil => exact absurd hr (List.not_mem_nil r)
  | append_singleton l a ih =>
    rw [List.map_append, List.nodup_append] at hnd
    obtain ⟨h1, -, h3⟩ := hnd
    rw [byIdxOf_append]
    rcases List.mem_append.1 hr with h | h
    · have hne : r.idx ≠ a.idx := by
        intro h0
        exact h3 (List.mem_map_of_mem _ h) (by rw [h0]; simp)
      rw [if_neg hne]
      exact ih h1 h
    · rw [List.mem_singleton.1 h]
      simp

theorem byIdxOf_ne_none (l : List (lookupResult F)) (r : lookupResult F) (hr : r ∈ l) :
    byIdxOf l r.idx ≠ none := by
  induction l using List.reverseRecOn with
  | nil => exact absurd hr (List.not_mem_nil r)
  | append_singleton l a ih =>
    rw [byIdxOf_append]
    by_cases hj : r.idx = a.idx
    · rw [if_pos hj]
      exact Option.some_ne_none _
    · rw [if_neg hj]
      rcases List.mem_append.1 hr with h | h
      · exact ih h
      · rw [List.mem_singleton.1 h] at hj
        exact absurd rfl hj

theorem byIdxOf_perm (l l2 : List (lookupResult F)) (hnd : (l.map lookupResult.idx).Nodup)
    (hp : l2.Perm l) : byIdxOf l2 = byIdxOf l := by
  have hnd2 : (l2.map lookupResult.idx).Nodup := (hp.map _).nodup_iff.2 hnd
  funext j
  by_cases h : ∃ r ∈ l, r.idx = j
  · obtain ⟨r, hr, hj⟩ := h
    rw [← hj, byIdxOf_of_mem l hnd r hr, byIdxOf_of_mem l2 hnd2 r (hp.mem_iff.2 hr)]
  · have h1 : ∀ r ∈ l, r.idx ≠ j := fun r hr h0 => h ⟨r, hr, h0⟩
    rw [byIdxOf_none l j h1, byIdxOf_none l2 j (fun r hr => h1 r (hp.mem_iff.1 hr))]

theorem merge_perm [Float64Ops F] (ip : String) (l l2 : List (lookupResult F)) (total : Int)
    (rdns : Option (List String)) (hnd : (l.map lookupResult.idx).Nodup) (hp : l2.Perm l) :
    merge ip l2 total rdns = merge ip l total rdns := by
  simp only [merge, byIdxOf_perm l l2 hnd hp, hp.length_eq]

theorem mem_ordinals (total i : Int) : i ∈ ordinals total ↔ 0 ≤ i ∧ i < total := by
  simp only [ordinals, List.mem_map, List.mem_range]
  constructor
  · rintro ⟨n, hn, rfl⟩
    have : (Int.ofNat n) = (n : Int) := rfl
    omega
  · intro h
    refine ⟨i.toNat, by omega, ?_⟩
    have : (Int.ofNat i.toNat) = (i.toNat : Int) := rfl
    omega

theorem ordinals_sorted (total : Int) : (ordinals total).Pairwise (fun a b => a < b) := by
  simp only [ordinals, List.pairwise_map]
  exact (List.pairwise_lt_range _).imp (fun h => Int.ofNat_lt.2 h)

theorem mem_visited (l : List (lookupResult F)) (total : Int) (r : lookupResult F) :
    r ∈ visited l total ↔ (0 ≤ r.idx ∧ r.idx < total) ∧ byIdxOf l r.idx = some r.info := by
  simp only [visited, List.mem_filterMap, Option.map_eq_some', mem_ordinals]
  constructor
  · rintro ⟨i, hi, info, h1, rfl⟩
    exact ⟨hi, h1⟩
  · rintro ⟨hi, h1⟩
    exact ⟨r.idx, hi, r.info, h1, rfl⟩

theorem visited_sorted (l : List (lookupResult F)) (total : Int) :
    (visited l total).Pairwise (fun a b => a.idx < b.idx) := by
  simp only [visited]
  rw [List.pairwise_filterMap]
  refine (ordinals_sorted total).imp ?_
  intro a b hab x hx y hy
  simp only [Option.mem_def, Option.map_eq_some'] at hx hy
  obtain ⟨_, _, rfl⟩ := hx
  obtain ⟨_, _, rfl⟩ := hy
  exact hab

theorem visited_perm (l : List (lookupResult F)) (total : Int)
    (hnd : (l.map lookupResult.idx).Nodup) (hr : ∀ r ∈ l, 0 ≤ r.idx ∧ r.idx < total) :
    (visited l total).Perm l := by
  have n1 : (visited l total).Nodup :=
    (visited_sorted l total).imp (fun {a b} h h0 => by rw [h0] at h; exact lt_irrefl _ h)
  have n2 : l.Nodup := List.Nodup.of_map _ hnd
  rw [List.perm_ext_iff_of_nodup n1 n2]
  intro r
  rw [mem_visited]
  constructor
  · rintro ⟨-, h⟩
    exact byIdxOf_some l r.idx r.info h
  · intro h
    exact ⟨hr r h, byIdxOf_of_mem l hnd r h⟩

theorem visited_eq_of_sorted (l sorted : List (lookupResult F)) (total : Int)
    (hp : sorted.Perm l) (hs : sorted.Pairwise (fun a b => a.idx < b.idx))
    (hr : ∀ r ∈ l, 0 ≤ r.idx ∧ r.idx < total) : visited l total = sorted := by
  have hnd : (l.map lookupResult.idx).Nodup := by
    rw [← (hp.map lookupResult.idx).nodup_iff]
    have h0 : (sorted.map lookupResult.idx).Pairwise (fun a b => a ≠ b) := by
      rw [List.pairwise_map]
      exact hs.imp (fun h => ne_of_lt h)
    exact h0
  have hanti : IsAntisymm (lookupResult F) (fun a b => a.idx < b.idx) :=
    ⟨fun a b h1 h2 => absurd h1 (not_lt_of_gt h2)⟩
  exact List.eq_of_perm_of_sorted ((visited_perm l total hnd hr).trans hp.symm)
    (visited_sorted l total) hs

theorem foldl_mergeStep [Float64Ops F] (m : Int → Option (JieGuo F)) (is : List Int)
    (s : mergeVars F) :
    is.foldl (mergeStep m) s =
      (is.filterMap (fun i => (m i).map (fun info => ({ idx := i, info := info } : lookupResult F)))).foldl
        (fun s r => mergeInfo s r.info) s := by
  induction is generalizing s with
  | nil => rfl
  | cons i is ih =>
    cases hm : m i with
    | none => simp [List.filterMap_cons, mergeStep, hm, ih]
    | some info => simp [List.filterMap_cons, mergeStep, hm, ih]

theorem merge_loop [Float64Ops F] (l : List (lookupResult F)) (total : Int) (s : mergeVars F) :
    (ordinals total).foldl (mergeStep (byIdxOf l)) s =
      ((visited l total).map lookupResult.info).foldl mergeInfo s := by
  rw [foldl_mergeStep, List.foldl_map]
  rfl

theorem fill_fixed {β : Type} [DecidableEq β] (z c : β) (xs : List β) (h : c ≠ z) :
    xs.foldl (fun cur x => if cur = z then x else cur) c = c := by
  induction xs with
  | nil => rfl
  | cons x xs ih => rw [List.foldl_cons, if_neg h, ih]

theorem fill_unset {β : Type} [DecidableEq β] (z : β) (xs : List β) (h : ∀ x ∈ xs, x = z) :
    xs.foldl (fun cur x => if cur = z then x else cur) z = z := by
  induction xs with
  | nil => rfl
  | cons x xs ih =>
    rw [List.foldl_cons, if_pos rfl, h x (by simp)]
    exact ih (fun y hy => h y (List.mem_cons_of_mem _ hy))

theorem fill_first {β : Type} [DecidableEq β] (z x : β) (A B : List β)
    (hA : ∀ a ∈ A, a = z) (hx : x ≠ z) :
    (A ++ x :: B).foldl (fun cur x => if cur = z then x else cur) z = x := by
  rw [List.foldl_append, fill_unset z A hA, List.foldl_cons, if_pos rfl, fill_fixed z x B hx]

theorem foldl_mergeInfo_field [Float64Ops F] {β : Type} [DecidableEq β] (z : β)
    (f : JieGuo F → β)
    (hstep : ∀ (s : mergeVars F) (info : JieGuo F),
      f (mergeInfo s info).out = if f s.out = z then f info else f s.out)
    (L : List (JieGuo F)) (s : mergeVars F) :
    f (L.foldl mergeInfo s).out =
      (L.map f).foldl (fun cur x => if cur = z then x else cur) (f s.out) := by
  induction L generalizing s with
  | nil => rfl
  | cons a L ih => rw [List.foldl_cons, ih, hstep, List.map_cons, List.foldl_cons]

/-- A field that `merge` fills by the first-unset rule obeys `FirstWins`. -/
theorem merge_firstWins [Float64Ops F] {β : Type} [DecidableEq β] (z : β) (f : JieGuo F → β)
    (hstep : ∀ (s : mergeVars F) (info : JieGuo F),
      f (mergeInfo s info).out = if f s.out = z then f info else f s.out)
    (hhost : ∀ (out : JieGuo F) (rdns : Option (List String)), f (withHostname out rdns) = f out)
    (hcoord : ∀ (out : JieGuo F) (a b : F), f { out with Latitude := a, Longitude := b } = f out)
    (hinit : ∀ (ip : String) (n : Int), f { JieGuo.zero F with IP := ip, Sources := n } = z)
    (ip : String) (l : List (lookupResult F)) (total : Int) (rdns : Option (List String))
    (hnd : (l.map lookupResult.idx).Nodup) (hr : ∀ r ∈ l, 0 ≤ r.idx ∧ r.idx < total) :
    FirstWins z f l (merge ip l total rdns) := by
  have hval : f (merge ip l total rdns) =
      ((visited l total).map (fun r => f r.info)).foldl
        (fun cur x => if cur = z then x else cur) z := by
    simp only [merge, hhost, merge_loop]
    split
    · rw [hcoord, foldl_mergeInfo_field z f hstep, hinit, List.map_map]
      rfl
    · rw [foldl_mergeInfo_field z f hstep, hinit, List.map_map]
      rfl
  have hp := visited_perm l total hnd hr
  have hs := visited_sorted l total
  rw [FirstWins, hval]
  constructor
  · intro r hrl hne hmin
    obtain ⟨A, B, hAB⟩ := List.append_of_mem (hp.mem_iff.2 hrl)
    rw [hAB] at hs
    rw [hAB, List.map_append, List.map_cons]
    apply fill_first z (f r.info) _ _ _ hne
    intro x hx
    obtain ⟨a, ha, rfl⟩ := List.mem_map.1 hx
    have hlt : a.idx < r.idx := (List.pairwise_append.1 hs).2.2 a ha r (by simp)
    by_contra h0
    have hal : a ∈ l := hp.mem_iff.1 (by rw [hAB]; exact List.mem_append_left _ ha)
    have := hmin a hal h0
    omega
  · intro hall
    apply fill_unset
    intro x hx
    obtain ⟨a, ha, rfl⟩ := List.mem_map.1 hx
    exact hall a (hp.mem_iff.1 ha)

theorem foldl_mergeInfo_coord [Float64Ops F] (L : List (JieGuo F)) (s : mergeVars F) :
    (L.foldl mergeInfo s).latSum =
        ((L.filter hasCoord).map JieGuo.Latitude).foldl Float64Ops.add s.latSum ∧
      (L.foldl mergeInfo s).lonSum =
        ((L.filter hasCoord).map JieGuo.Longitude).foldl Float64Ops.add s.lonSum ∧
      (L.foldl mergeInfo s).coordN = s.coordN + ((L.filter hasCoord).length : Int) ∧
      (L.foldl mergeInfo s).out.Latitude = s.out.Latitude ∧
      (L.foldl mergeInfo s).out.Longitude = s.out.Longitude := by
  induction L generalizing s with
  | nil => simp
  | cons a L ih =>
    obtain ⟨h1, h2, h3, h4, h5⟩ := ih (mergeInfo s a)
    rw [List.foldl_cons, h1, h2, h3, h4, h5]
    cases hc : hasCoord a with
    | true =>
      have hc2 : (Float64Ops.neZero a.Latitude || Float64Ops.neZero a.Longitude) = true := hc
      simp only [mergeInfo, hc2, if_true, List.filter_cons, hc, List.map_cons, List.foldl_cons,
        List.length_cons]
      refine ⟨trivial, trivial, ?_, trivial, trivial⟩
      push_cast
      ring
    | false =>
      have hc2 : (Float64Ops.neZero a.Latitude || Float64Ops.neZero a.Longitude) = false := hc
      simp [mergeInfo, hc2, List.filter_cons, hc]

theorem withHostname_coord (out : JieGuo F) (rdns : Option (List String)) :
    (withHostname out rdns).Latitude = out.Latitude ∧
      (withHostname out rdns).Longitude = out.Longitude ∧
      (withHostname out rdns).Sources = out.Sources := by
  unfold withHostname
  split <;> exact ⟨rfl, rfl, rfl⟩

theorem merge_sources [Float64Ops F] (ip : String) (l : List (lookupResult F)) (total : Int)
    (rdns : Option (List String)) : (merge ip l total rdns).Sources = (l.length : Int) := by
  simp only [merge, (withHostname_coord _ _).2.2, merge_loop]
  have hsrc : ∀ (L : List (JieGuo F)) (s : mergeVars F),
      (L.foldl mergeInfo s).out.Sources = s.out.Sources := by
    intro L
    induction L with
    | nil => intro s; rfl
    | cons a L ih =>
      intro s
      rw [List.foldl_cons, ih]
      simp only [mergeInfo]
      split <;> rfl
  split
  · exact hsrc _ _
  · exact hsrc _ _

theorem visited_idx (l : List (lookupResult F)) (total : Int) :
    (visited l total).map lookupResult.idx = presentOrdinals l total := by
  have hgen : ∀ is : List Int,
      (is.filterMap (fun i => (byIdxOf l i).map
        (fun info => ({ idx := i, info := info } : lookupResult F)))).map lookupResult.idx =
      is.filter (fun i => decide (∃ r ∈ l, r.idx = i)) := by
    intro is
    induction is with
    | nil => rfl
    | cons i is ih =>
      cases hm : byIdxOf l i with
      | none =>
        have hno : ¬ ∃ r ∈ l, r.idx = i := by
          rintro ⟨r, hr, rfl⟩
          exact byIdxOf_ne_none l r hr hm
        simp [List.filterMap_cons, hm, List.filter_cons, hno, ih]
      | some info =>
        have hyes : ∃ r ∈ l, r.idx = i := ⟨_, byIdxOf_some l i info hm, rfl⟩
        simp [List.filterMap_cons, hm, List.filter_cons, hyes, ih]
  exact hgen _

theorem mem_sentFrom (i : Nat) (l : List (Option (JieGuo F))) :
    ∀ r ∈ sentFrom i l, (i : Int) ≤ r.idx ∧ r.idx < (i : Int) + (l.length : Int) := by
  induction l generalizing i with
  | nil => intro r hr; exact absurd hr (List.not_mem_nil r)
  | cons x l ih =>
    intro r hr
    cases x with
    | none =>
      have := ih (i + 1) r hr
      simp only [List.length_cons]
      push_cast at this ⊢
      omega
    | some info =>
      rcases List.mem_cons.1 hr with h | h
      · rw [h]
        simp only [List.length_cons]
        push_cast
        omega
      · have := ih (i + 1) r h
        simp only [List.length_cons]
        push_cast at this ⊢
        omega

theorem mem_sentFrom_iff (k : Nat) (l : List (Option (JieGuo F))) (r : lookupResult F) :
    r ∈ sentFrom k l ↔ ∃ i : Nat, l[i]? = some (some r.info) ∧ r.idx = ((k + i : Nat) : Int) := by
  induction l generalizing k with
  | nil => simp [sentFrom]
  | cons x l ih =>
    cases x with
    | none =>
      simp only [sentFrom, ih]
      constructor
      · rintro ⟨i, h1, h2⟩
        exact ⟨i + 1, by simpa using h1, by rw [h2]; push_cast; ring⟩
      · rintro ⟨i, h1, h2⟩
        cases i with
        | zero => simp at h1
        | succ i => exact ⟨i, by simpa using h1, by rw [h2]; push_cast; ring⟩
    | some info =>
      simp only [sentFrom, List.mem_cons, ih]
      constructor
      · rintro (h | ⟨i, h1, h2⟩)
        · exact ⟨0, by rw [h]; simp, by rw [h]; simp⟩
        · exact ⟨i + 1, by simpa using h1, by rw [h2]; push_cast; ring⟩
      · rintro ⟨i, h1, h2⟩
        cases i with
        | zero =>
          left
          simp only [List.getElem?_cons_zero, Option.some.injEq] at h1
          cases r
          simp only [lookupResult.mk.injEq]
          simp only at h1 h2
          exact ⟨by rw [h2]; simp, h1.symm⟩
        | succ i =>
          right
          exact ⟨i, by simpa using h1, by rw [h2]; push_cast; ring⟩

theorem sentFrom_length (i : Nat) (l : List (Option (JieGuo F))) :
    (sentFrom i l).length = (l.filter Option.isSome).length := by
  induction l generalizing i with
  | nil => rfl
  | cons x l ih =>
    cases x with
    | none => simpa [sentFrom] using ih (i + 1)
    | some info => simpa [sentFrom] using ih (i + 1)

theorem sentFrom_sorted (i : Nat) (l : List (Option (JieGuo F))) :
    (sentFrom i l).Pairwise (fun a b => a.idx < b.idx) := by
  induction l generalizing i with
  | nil => exact List.Pairwise.nil
  | cons x l ih =>
    cases x with
    | none => exact ih (i + 1)
    | some info =>
      refine List.Pairwise.cons ?_ (ih (i + 1))
      intro r hr
      have := (mem_sentFrom (i + 1) l r hr).1
      push_cast at this
      show (i : Int) < r.idx
      omega

theorem sent_nodup (l : List (Option (JieGuo F))) :
    ((sent l).map lookupResult.idx).Nodup := by
  have h0 : ((sent l).map lookupResult.idx).Pairwise (fun a b => a ≠ b) := by
    rw [List.pairwise_map]
    exact (sentFrom_sorted 0 l).imp (fun h => ne_of_lt h)
  exact h0

theorem sentFrom_eq_nil (i : Nat) (l : List (Option (JieGuo F))) :
    sentFrom i l = [] ↔ ∀ x ∈ l, x = none := by
  induction l generalizing i with
  | nil => simp [sentFrom]
  | cons x l ih =>
    cases x with
    | none => simp [sentFrom, ih]
    | some info => simp [sentFrom]

theorem lookupAll_eq [Float64Ops F] (arrival : Order (lookupResult F)) (ip : String)
    (fetched : List (Option (JieGuo F))) (rdns : Option (List String)) :
    lookupAll arrival ip fetched rdns =
      if (sent fetched).length = 0 then .error "all providers failed"
      else .ok (merge ip (sent fetched) (fetched.length : Int) rdns) := by
  have hp := arrival.perm (sent fetched)
  simp only [lookupAll, hp.length_eq]
  split
  · rfl
  · rw [merge_perm ip (sent fetched) _ _ rdns (sent_nodup fetched) hp]

end MergeLemmas


/-! ## The cache: capacity, eviction, lookup, round trip -/

section CacheClaims

variable {F : Type}

/-- C1, as stated, fails: with a configured maximum of 0 a single `set` on a fresh
cache leaves one entry in the table, which exceeds the maximum. -/
theorem capacity_exceeded_at_zero :
    ((newCache ℚ 600000000000 0).writes [Write.set (Order.front _) "8.8.8.8" none 0]).len = 1 ∧
      ¬ ∀ (cap ttl : Int) (ws : List (Write ℚ)), ((newCache ℚ ttl cap).writes ws).len ≤ cap := by
  refine ⟨by decide, fun h => ?_⟩
  have h1 := h 0 600000000000 [Write.set (Order.front _) "8.8.8.8" none 0]
  revert h1
  decide

/-- C1, amended: after each call of any sequence of `set` / `setTTL` calls on a fresh
cache, whatever the keys, values, TTLs, call times and orders of eviction scan,
the table holds no more entries than the configured maximum, or than 1 when the
configured maximum is below 1. -/
theorem capacity_invariant (ttl cap : Int) (ws : List (Write F)) (n : Nat) :
    ((newCache F ttl cap).writes (ws.take n)).len ≤ max cap 1 := by
  have h0 : (newCache F ttl cap).len ≤ max (newCache F ttl cap).max 1 := by
    simp [newCache, cache.len]
  exact writes_len_le (ws.take n) (newCache F ttl cap) h0

/-- C2: when `set` or `setTTL` is called with a key that is not in the table while the
table holds exactly `max` entries and `max >= 1`, `evict` removes exactly one
entry, its expiry is at most the expiry of every entry present, every other
entry is unchanged, and the new entry is then stored. -/
theorem eviction_victim (o : Order (Entry F)) (c : cache F) (ip : String)
    (val : Option (JieGuo F)) (ttl now : Int) (hnew : c.data.lookup ip = none)
    (hfull : c.len = c.max) (hmax : 1 ≤ c.max) :
    EvictsOne c (c.evict o) (c.set o ip val now) ip
        { data := val, expireAt := unix (now + c.ttl) } ∧
      EvictsOne c (c.evict o) (c.setTTL o ip val ttl now) ip
        { data := val, expireAt := unix (now + ttl) } :=
  ⟨setTTL_evictsOne o c ip val c.ttl now hnew hfull hmax,
    setTTL_evictsOne o c ip val ttl now hnew hfull hmax⟩

/-- C2 on the scenario of the specification: capacity 2, A expiring at +1s and B at
+5s; storing C evicts A and keeps B, so that `get` misses A and hits B, in either
order of the eviction scan. -/
theorem eviction_victim_witness :
    (cacheAB.data.lookup "C" = none ∧ cacheAB.len = cacheAB.max ∧ 1 ≤ cacheAB.max) ∧
      (EvictsOne cacheAB (cacheAB.evict (Order.back _))
          (cacheAB.set (Order.back _) "C" (some (sample "c" 3 3)) 0) "C"
          { data := some (sample "c" 3 3), expireAt := unix (0 + cacheAB.ttl) } ∧
        EvictsOne cacheAB (cacheAB.evict (Order.back _))
          (cacheAB.setTTL (Order.back _) "C" (some (sample "c" 3 3)) 7000000000 0) "C"
          { data := some (sample "c" 3 3), expireAt := unix (0 + 7000000000) }) ∧
      ((cacheAB.set (Order.back _) "C" (some (sample "c" 3 3)) 0).get "A" 0).2 = (none, false) ∧
      ((cacheAB.set (Order.back _) "C" (some (sample "c" 3 3)) 0).get "B" 0).2 =
        (some (sample "b" 2 2), true) ∧
      ((cacheAB.set (Order.front _) "C" (some (sample "c" 3 3)) 0).get "A" 0).2 = (none, false) ∧
      ((cacheAB.set (Order.front _) "C" (some (sample "c" 3 3)) 0).get "B" 0).2 =
        (some (sample "b" 2 2), true) :=
  ⟨⟨by decide, by decide, by decide⟩,
    eviction_victim (Order.back _) cacheAB "C" (some (sample "c" 3 3)) 7000000000 0
      (by decide) (by decide) (by decide),
    by decide, by decide, by decide, by decide⟩

/-- C8: `get` hits, returning the stored record, exactly when the key is present and
the clock in Unix seconds is at most the expiry; otherwise it returns the very
result it returns for a key that is absent from a table, also when the expired entry
is still stored; and `get` leaves the cache as it was. -/
theorem get_semantics (c : cache F) (ip : String) (now : Int) :
    (c.get ip now).1 = c ∧
      (((c.get ip now).2).2 = true ↔
        ∃ item, c.data.lookup ip = some item ∧ unix now ≤ item.expireAt) ∧
      (∀ item, c.data.lookup ip = some item → unix now ≤ item.expireAt →
        (c.get ip now).2 = (item.data, true)) ∧
      ((¬ ∃ item, c.data.lookup ip = some item ∧ unix now ≤ item.expireAt) →
        (c.get ip now).2 = (none, false) ∧
        ∀ (c2 : cache F) (t : Int), c2.data.lookup ip = none →
          (c.get ip now).2 = (c2.get ip t).2) := by
  have hmiss : ∀ (c2 : cache F) (t : Int), c2.data.lookup ip = none →
      (c2.get ip t).2 = (none, false) := by
    intro c2 t h
    simp [cache.get, h]
  cases hl : c.data.lookup ip with
  | none =>
    refine ⟨by simp [cache.get, hl], by simp [cache.get, hl], by simp, fun _ => ?_⟩
    refine ⟨hmiss c now hl, fun c2 t h2 => ?_⟩
    rw [hmiss c now hl, hmiss c2 t h2]
  | some item =>
    by_cases hexp : unix now > item.expireAt
    · have hg : c.get ip now = (c, (none, false)) := by simp [cache.get, hl, hexp]
      refine ⟨by rw [hg], ?_, ?_, fun _ => ⟨by rw [hg], fun c2 t h2 => ?_⟩⟩
      · rw [hg]
        simp only [Bool.false_eq_true, Option.some.injEq, exists_eq_left', false_iff, not_le]
        exact hexp
      · intro it hit hle
        rw [Option.some.inj hit] at hexp
        exact absurd hle (not_le.2 hexp)
      · rw [hg, hmiss c2 t h2]
    · have hg : c.get ip now = (c, (item.data, true)) := by simp [cache.get, hl, hexp]
      refine ⟨by rw [hg], ?_, ?_, fun hno => ?_⟩
      · rw [hg]
        simp only [Option.some.injEq, exists_eq_left', true_iff]
        exact not_lt.1 hexp
      · intro it hit _
        rw [hg, Option.some.inj hit]
      · exact absurd ⟨item, rfl, not_lt.1 hexp⟩ hno

/-- C9: after `setTTL(key, v, ttl)` at time `t` the entry of the key is `v` with expiry
`Unix(t + ttl)`, and a `get` of the key at any time `t2 <= t + ttl` (so in
particular for `ttl >= 0` and `t <= t2 <= t + ttl`) hits and returns exactly `v`,
a record or the nil sentinel alike; the same holds for `set` with the default TTL
of the cache; and after the total-failure path of `handleIP` a `get` within 60s
returns the sentinel as a hit. -/
theorem set_get_round_trip (o : Order (Entry F)) (c : cache F) (ip : String)
    (v : Option (JieGuo F)) (ttl t t2 : Int) (h2 : t2 ≤ t + ttl) :
    (c.setTTL o ip v ttl t).data.lookup ip = some { data := v, expireAt := unix (t + ttl) } ∧
      ((c.setTTL o ip v ttl t).get ip t2).2 = (v, true) ∧
      (c.ttl = ttl →
        (c.set o ip v t).data.lookup ip = some { data := v, expireAt := unix (t + ttl) } ∧
        ((c.set o ip v t).get ip t2).2 = (v, true)) ∧
      (∀ [Float64Ops F] (arrival : Order (lookupResult F)) (fetched : List (Option (JieGuo F)))
          (rdns : Option (List String)) (nowGet : Int),
        ((c.get ip nowGet).2).2 = false → (∀ x ∈ fetched, x = none) → ttl = 60 * 1000000000 →
          (handleIP o arrival c ip nowGet fetched rdns t).2 = Reply.error502 ∧
          (((handleIP o arrival c ip nowGet fetched rdns t).1).get ip t2).2 = (none, true)) := by
  refine ⟨setTTL_lookup o c ip v ttl t, get_after_setTTL o c ip v ttl t t2 h2, ?_, ?_⟩
  · intro hc
    rw [set_eq_setTTL, hc]
    exact ⟨setTTL_lookup o c ip v ttl t, get_after_setTTL o c ip v ttl t t2 h2⟩
  · intro _ arrival fetched rdns nowGet hmiss hfail h60
    have hc1 : (c.get ip nowGet).1 = c := by
      simp only [cache.get]
      split
      · rfl
      · split <;> rfl
    have hsent : (sent fetched).length = 0 := by
      rw [List.length_eq_zero]
      exact (sentFrom_eq_nil 0 fetched).2 hfail
    have hh : handleIP o arrival c ip nowGet fetched rdns t =
        (c.setTTL o ip none (60 * 1000000000) t, Reply.error502) := by
      rcases hg : c.get ip nowGet with ⟨c1, info, b⟩
      rw [hg] at hmiss hc1
      simp only at hmiss hc1
      subst hmiss hc1
      simp only [handleIP, hg, lookupAll_eq, hsent, if_true]
    rw [hh]
    refine ⟨rfl, ?_⟩
    rw [← h60]
    exact get_after_setTTL o c ip none ttl t t2 h2

/-- C9 on the negative-caching path: the sentinel stored with a 60s TTL at time 0 is
returned as a hit at +60s. -/
theorem set_get_round_trip_witness :
    (60000000000 : Int) ≤ 0 + 60000000000 ∧
      (((newCache ℚ 600000000000 10000).setTTL (Order.front _) "8.8.8.8" none 60000000000
        0).get "8.8.8.8" 60000000000).2 = (none, true) :=
  ⟨by decide,
    (set_get_round_trip (Order.front _) (newCache ℚ 600000000000 10000) "8.8.8.8" none
      60000000000 0 60000000000 (by decide)).2.1⟩

end CacheClaims


/-! ## Merge and lookup: precedence, order independence, coordinates, sources -/

section MergeClaims

variable {F : Type} [Float64Ops F]

/-- C3: for distinct ordinals in `[0,total)`, in whatever order the list gives them,
each of the twelve string fields of the output of `merge` is the field of the
record of lowest ordinal in which it is not empty, and is empty when it is empty
in all; is-proxy is that of the record of lowest ordinal in which it is set
(true or false alike) and nil when none sets it. -/
theorem field_precedence (ip : String) (results : List (lookupResult F)) (total : Int)
    (rdns : Option (List String)) (hnd : (results.map lookupResult.idx).Nodup)
    (hr : ∀ r ∈ results, 0 ≤ r.idx ∧ r.idx < total) :
    FieldPrecedence results (merge ip results total rdns) := by
  have hhost : ∀ {β : Type} (f : JieGuo F → β),
      (∀ (out : JieGuo F) (h : String), f { out with Hostname := h } = f out) →
      ∀ (out : JieGuo F) (rdns : Option (List String)), f (withHostname out rdns) = f out := by
    intro β f hf out rdns
    unfold withHostname
    split
    · exact hf _ _
    · rfl
  refine ⟨?_, ?_, ?_, ?_, ?_, ?_, ?_, ?_, ?_, ?_, ?_, ?_, ?_⟩
  case refine_13 =>
    refine merge_firstWins none JieGuo.IsProxy ?_ (hhost _ (fun _ _ => rfl)) (fun _ _ _ => rfl)
      (fun _ _ => rfl) ip results total rdns hnd hr
    intro s info
    have e : (mergeInfo s info).out.IsProxy =
        if s.out.IsProxy = none ∧ info.IsProxy ≠ none then info.IsProxy else s.out.IsProxy := by
      simp only [mergeInfo]
      split <;> rfl
    rw [e]
    by_cases h1 : s.out.IsProxy = none <;> by_cases h2 : info.IsProxy = none <;> simp [h1, h2]
  all_goals
    refine merge_firstWins "" _ ?_ ?_ ?_ ?_ ip results total rdns hnd hr
    · intro s info
      simp only [mergeInfo]
      split <;> rfl
    · exact hhost _ (fun _ _ => rfl)
    · intro _ _ _
      rfl
    · intro _ _
      rfl

/-- C3 on the scenario of the specification: P0 with city A and P1 with city B give
city A for both orders of the list; and is-proxy false from P0 beats true from P1. -/
theorem field_precedence_witness :
    ((twoResults.map lookupResult.idx).Nodup ∧ ∀ r ∈ twoResults, 0 ≤ r.idx ∧ r.idx < 2) ∧
      FieldPrecedence twoResults (merge "1.1.1.1" twoResults 2 none) ∧
      (merge "1.1.1.1" twoResults 2 none).City = "A" ∧
      (merge "1.1.1.1" twoResults.reverse 2 none).City = "A" ∧
      (merge "1.1.1.1" proxyResults 2 none).IsProxy = some false ∧
      (merge "1.1.1.1" proxyResults.reverse 2 none).IsProxy = some false :=
  ⟨⟨by decide, by decide⟩,
    field_precedence "1.1.1.1" twoResults 2 none (by decide) (by decide),
    by decide, by decide, by decide, by decide⟩

/-- C4: for distinct ordinals, `merge` returns the same record, every field of it,
for every rearrangement of the list of results, the address, the provider count
and the reverse-DNS answer being the same. -/
theorem merge_order_independent (ip : String) (results results2 : List (lookupResult F))
    (total : Int) (rdns : Option (List String))
    (hnd : (results.map lookupResult.idx).Nodup) (hp : results2.Perm results) :
    merge ip results2 total rdns = merge ip results total rdns :=
  merge_perm ip results results2 total rdns hnd hp

/-- C4 on three results and their reversal. -/
theorem merge_order_independent_witness :
    ((threeResults.map lookupResult.idx).Nodup ∧ threeResults.reverse.Perm threeResults) ∧
      merge "1.1.1.1" threeResults.reverse 3 none = merge "1.1.1.1" threeResults 3 none :=
  ⟨⟨by decide, List.reverse_perm _⟩,
    merge_order_independent "1.1.1.1" threeResults threeResults.reverse 3 none (by decide)
      (List.reverse_perm _)⟩

/-- C5: let `sorted` list the results by increasing ordinal, all in `[0,total)`, and let
the records used be those whose latitude or longitude is not zero. If some
record is used, the output latitude is the sum of the latitudes of the used
records, added in ordinal order starting from zero, divided by their number, and
likewise the longitude: their arithmetic mean. A record reporting (0,0) is in
neither the sum nor the divisor. If no record is used both outputs are the zero
value, whatever the division would give. -/
theorem coordinate_average (ip : String) (results sorted : List (lookupResult F)) (total : Int)
    (rdns : Option (List String)) (hp : sorted.Perm results)
    (hs : sorted.Pairwise (fun a b => a.idx < b.idx))
    (hr : ∀ r ∈ results, 0 ≤ r.idx ∧ r.idx < total) :
    (((sorted.map lookupResult.info).filter hasCoord) ≠ [] →
        (merge ip results total rdns).Latitude =
          Float64Ops.quo
            ((((sorted.map lookupResult.info).filter hasCoord).map JieGuo.Latitude).foldl
              Float64Ops.add Float64Ops.zero)
            (Float64Ops.ofInt (((sorted.map lookupResult.info).filter hasCoord).length : Int)) ∧
        (merge ip results total rdns).Longitude =
          Float64Ops.quo
            ((((sorted.map lookupResult.info).filter hasCoord).map JieGuo.Longitude).foldl
              Float64Ops.add Float64Ops.zero)
            (Float64Ops.ofInt (((sorted.map lookupResult.info).filter hasCoord).length : Int))) ∧
      (((sorted.map lookupResult.info).filter hasCoord) = [] →
        (merge ip results total rdns).Latitude = Float64Ops.zero ∧
        (merge ip results total rdns).Longitude = Float64Ops.zero) := by
  have hv := visited_eq_of_sorted results sorted total hp hs hr
  obtain ⟨c1, c2, c3, c4, c5⟩ := foldl_mergeInfo_coord (sorted.map lookupResult.info)
    ({ out := { JieGuo.zero F with IP := ip, Sources := (results.length : Int) },
       latSum := Float64Ops.zero, lonSum := Float64Ops.zero, coordN := 0 } : mergeVars F)
  simp only [zero_add] at c3
  constructor
  · intro hne
    have hpos : (0 : Int) < (((sorted.map lookupResult.info).filter hasCoord).length : Int) := by
      have := List.length_pos.2 hne
      omega
    simp only [merge, (withHostname_coord _ _).1, (withHostname_coord _ _).2.1, merge_loop, hv,
      c3, gt_iff_lt, hpos, if_true, c1, c2]
    exact ⟨trivial, trivial⟩
  · intro hnil
    have hz : ¬ (0 : Int) < (((sorted.map lookupResult.info).filter hasCoord).length : Int) := by
      rw [hnil]
      simp
    simp only [merge, (withHostname_coord _ _).1, (withHostname_coord _ _).2.1, merge_loop, hv,
      c3, gt_iff_lt, hz, if_false, c4, c5]
    exact ⟨rfl, rfl⟩

/-- C5 on the scenario of the specification: (10,20) and (30,40) give (20,30), and
a third record reporting (0,0) leaves (20,30). -/
theorem coordinate_average_witness :
    (threeResults.Perm threeResults ∧
        threeResults.Pairwise (fun a b => a.idx < b.idx) ∧
        ∀ r ∈ threeResults, 0 ≤ r.idx ∧ r.idx < 3) ∧
      (merge "1.1.1.1" threeResults 3 none).Latitude =
        ((0 + 10 + 30 : ℚ) / ((2 : Int) : ℚ)) ∧
      (merge "1.1.1.1" threeResults 3 none).Latitude = 20 ∧
      (merge "1.1.1.1" threeResults 3 none).Longitude = 30 ∧
      (merge "1.1.1.1" twoResults 2 none).Latitude = 20 ∧
      (merge "1.1.1.1" twoResults 2 none).Longitude = 30 :=
  ⟨⟨List.Perm.refl _, by decide, by decide⟩,
    ((coordinate_average "1.1.1.1" threeResults threeResults 3 none (List.Perm.refl _)
      (by decide) (by decide)).1 (by decide)).1,
    by decide!, by decide!, by decide!, by decide!⟩

/-- C6: for every list that `lookupAll` passes to `merge`, that is the successful
records tagged with the positions of their providers, in any order of arrival,
with the number of configured providers as provider count, the source count of
the output is the number of distinct ordinals in `[0,total)` at which the list
holds a record; these ordinals are exactly the ones the field loop visits, and
their number is the number of providers that succeeded, whatever the fields the
records fill. -/
theorem source_count (arrival : Order (lookupResult F)) (ip : String)
    (fetched : List (Option (JieGuo F))) (rdns : Option (List String)) :
    (merge ip (arrival.arrange (sent fetched)) (fetched.length : Int) rdns).Sources =
        ((presentOrdinals (arrival.arrange (sent fetched)) (fetched.length : Int)).length : Int) ∧
      (visited (arrival.arrange (sent fetched)) (fetched.length : Int)).map lookupResult.idx =
        presentOrdinals (arrival.arrange (sent fetched)) (fetched.length : Int) ∧
      (presentOrdinals (arrival.arrange (sent fetched)) (fetched.length : Int)).length =
        (fetched.filter Option.isSome).length := by
  have hp := arrival.perm (sent fetched)
  have hnd : ((arrival.arrange (sent fetched)).map lookupResult.idx).Nodup :=
    (hp.map _).nodup_iff.2 (sent_nodup fetched)
  have hr : ∀ r ∈ arrival.arrange (sent fetched), 0 ≤ r.idx ∧ r.idx < (fetched.length : Int) := by
    intro r hmem
    have := mem_sentFrom 0 fetched r (hp.mem_iff.1 hmem)
    push_cast at this
    omega
  have hlen : (presentOrdinals (arrival.arrange (sent fetched)) (fetched.length : Int)).length =
      (arrival.arrange (sent fetched)).length := by
    rw [← visited_idx, List.length_map, (visited_perm _ _ hnd hr).length_eq]
  refine ⟨?_, visited_idx _ _, ?_⟩
  · rw [merge_sources, hlen]
  · rw [hlen, hp.length_eq]
    exact sentFrom_length 0 fetched

/-- C7: whatever the order of arrival, `lookupAll` returns an error exactly when no
provider succeeded (so also for no provider at all), the error then being the
all-providers-failed one; otherwise it returns, without error, `merge` of the
address, the successful records each tagged with the position of its provider,
and the number of providers. -/
theorem lookupAll_fails_iff_none_succeeded (arrival : Order (lookupResult F)) (ip : String)
    (fetched : List (Option (JieGuo F))) (rdns : Option (List String)) :
    ((∃ e, lookupAll arrival ip fetched rdns = .error e) ↔ ∀ x ∈ fetched, x = none) ∧
      ((∀ x ∈ fetched, x = none) →
        lookupAll arrival ip fetched rdns = .error "all providers failed") ∧
      ((∃ x ∈ fetched, x ≠ none) →
        lookupAll arrival ip fetched rdns =
          .ok (merge ip (sent fetched) (fetched.length : Int) rdns)) ∧
      (∀ r, r ∈ sent fetched ↔
        ∃ i : Nat, fetched[i]? = some (some r.info) ∧ r.idx = (i : Int)) := by
  have hnil : (sent fetched).length = 0 ↔ ∀ x ∈ fetched, x = none := by
    rw [List.length_eq_zero]
    exact sentFrom_eq_nil 0 fetched
  have hfail : (∀ x ∈ fetched, x = none) →
      lookupAll arrival ip fetched rdns = .error "all providers failed" := by
    intro h
    rw [lookupAll_eq, if_pos (hnil.2 h)]
  have hok : (¬ ∀ x ∈ fetched, x = none) →
      lookupAll arrival ip fetched rdns =
        .ok (merge ip (sent fetched) (fetched.length : Int) rdns) := by
    intro h
    rw [lookupAll_eq, if_neg (fun h0 => h (hnil.1 h0))]
  refine ⟨⟨?_, fun h => ⟨_, hfail h⟩⟩, hfail, ?_, ?_⟩
  · rintro ⟨e, he⟩
    by_contra h
    rw [hok h] at he
    exact Except.noConfusion he
  · rintro ⟨x, hx, hne⟩
    exact hok (fun h => hne (h x hx))
  · intro r
    rw [sent, mem_sentFrom_iff]
    simp

end MergeClaims

/-! ## The request handler on a cached failure -/

/-- C10 fails on the code: with the default settings, a first request for 8.8.8.8 during
which all six providers fail is answered 502 and stores the nil sentinel for 60s;
a second request one second later hits that entry and is answered 200 with the
nil record, which has no source count at all, and no provider is asked. -/
theorem cached_failure_answered_as_success :
    afterFailure.2 = Reply.error502 ∧
      afterFailure.1.data.lookup "8.8.8.8" = some { data := none, expireAt := 60 } ∧
      ∀ (fetched : List (Option (JieGuo ℚ))),
        (handleIP (Order.front _) (Order.front _) afterFailure.1 "8.8.8.8" 1000000000
          fetched none 1000000000).2 = Reply.json200 none := by
  refine ⟨by decide, by decide, fun fetched => ?_⟩
  have h2 : (afterFailure.1.get "8.8.8.8" 1000000000).2 = (none, true) := by decide
  rcases hg : afterFailure.1.get "8.8.8.8" 1000000000 with ⟨c1, info, b⟩
  rw [hg] at h2
  simp only [Prod.mk.injEq] at h2
  obtain ⟨rfl, rfl⟩ := h2
  simp only [handleIP, hg]

end IpJson
